import Mathlib

/-!
# serial_connect: a console to serial-device bridge

Shallow embedding of `src/serial_connect/main.c`.

* A byte is a `Fin 256` (its unsigned value). The C code reads the frame through
  `const char*`; on the Apple targets this program is written for (it includes
  `IOKit/serial/ioss.h`) plain `char` is signed, so comparisons see `charVal`.
* System calls are recorded as an effect trace (`List Event`), in program order.
  Results of the calls come from a `World` script. Return values the C code throws
  away (every `write`, `usleep`, `fcntl`, `tcgetattr`, `tcsetattr`, `close`) are
  not consulted by the model either.
* A frame is the pair `(buf, n)` of the C code, seen as the list `buf[0..n)`.
-/

namespace SerialConnect

/-! ## Bytes and the C `char` view -/

abbrev Byte := Fin 256

/-- Value of a byte read through a (signed) `char` lvalue, after integer promotion. -/
def charVal (b : Byte) : Int :=
  if b.val < 128 then (b.val : Int) else (b.val : Int) - 256

/-- The cast `(unsigned char) c` of a promoted char value. -/
def toUnsignedChar (c : Int) : Nat := (c % 256).toNat

def STDIN_FILENO : Int := 0
def STDOUT_FILENO : Int := 1

/-! ## Terminal attributes and effects -/

/-- A `struct termios` value, kept symbolic: the libc operations on it are not part
of the source, so they are free constructors. -/
inductive Termios
  | zero                                  -- static storage, never written
  | indeterminate                         -- automatic storage, never written
  | attrs (id : Nat)                      -- filled in by a successful tcgetattr
  | cfmakeraw (t : Termios)
  | or_CLOCAL (t : Termios)
  | cfsetspeed (t : Termios) (speed : Nat)
  deriving DecidableEq, Repr

inductive OFlag
  | O_RDWR | O_NOCTTY | O_NONBLOCK
  deriving DecidableEq, Repr

/-- Functions that can be registered with `atexit`. -/
inductive Handler
  | restore_terminal
  deriving DecidableEq, Repr

/-- Outcome of one `read(fd, buf, sizeof buf)`: the bytes delivered (return value is
their number, `0` meaning end of stream), or an error (return value `-1`). -/
inductive ReadRes
  | data (bytes : List Byte)
  | error
  deriving DecidableEq, Repr

def ReadRes.ret : ReadRes → Int
  | .data bytes => (bytes.length : Int)
  | .error => -1

def ReadRes.frame : ReadRes → List Byte
  | .data bytes => bytes
  | .error => []

/-- One observable action of the process. Calls whose result steers the control
flow carry that result. -/
inductive Event
  | write (fd : Int) (bytes : List Byte)
  | usleep (usec : Nat)
  | fprintf_stderr (text : String)
  | perror (s : String)
  | sys_open (path : String) (flags : List OFlag) (ret : Int)
  | fcntl_SETFL (fd : Int) (arg : Int)
  | tcgetattr (fd : Int) (res : Option Nat)
  | tcsetattr_TCSANOW (fd : Int) (tio : Termios)
  | ioctl_IOSSIOSPEED (fd : Int) (speed : Nat) (ret : Int)
  | atexit (h : Handler)
  | select (nfds : Int) (watch : List Int) (ret : Int) (ready : List Int)
  | read (fd : Int) (size : Nat) (res : ReadRes)
  | close (fd : Int)
  deriving DecidableEq, Repr

/-- Bytes handed to `write` on descriptor `fd`, in order. -/
def written (fd : Int) : List Event → List Byte
  | [] => []
  | Event.write fd1 bytes :: rest =>
      if fd1 = fd then bytes ++ written fd rest else written fd rest
  | _ :: rest => written fd rest

def isWrite : Event → Bool
  | Event.write _ _ => true
  | _ => false

/-! ## `snprintf(hex, sizeof(hex), "[%02X]", v)` -/

/-- Character code of one uppercase hexadecimal digit, as `%X` prints it. -/
def hexDigitUpper (d : Nat) : Byte :=
  if d < 10 then ⟨(48 + d) % 256, Nat.mod_lt _ (by decide)⟩
  else ⟨(55 + d) % 256, Nat.mod_lt _ (by decide)⟩

/-- Digits of `v` in base 16, most significant first (`fuel` bounds the recursion). -/
def hexDigitsUpper : Nat → Nat → List Byte → List Byte
  | 0, _, acc => acc
  | fuel + 1, v, acc =>
      if v / 16 = 0 then hexDigitUpper (v % 16) :: acc
      else hexDigitsUpper fuel (v / 16) (hexDigitUpper (v % 16) :: acc)

/-- The conversion `%02X`: at least two digits, padded on the left with zeros. -/
def fmt02X (v : Nat) : List Byte :=
  let ds := hexDigitsUpper (v + 1) v []
  List.replicate (2 - ds.length) (48 : Byte) ++ ds

/-- Contents of the destination buffer after `snprintf(dst, size, "[%02X]", v)`:
at most `size - 1` characters, then the terminating NUL. -/
def snprintf_hex (size : Nat) (v : Nat) : List Byte :=
  (((91 : Byte) :: fmt02X v) ++ [(93 : Byte)]).take (size - 1) ++ [(0 : Byte)]

/-! ## The two transcoding routines -/

/-- Embedding of `stdout_write(buf, n)`, lines 19-33. -/
def stdout_write : List Byte → List Event
  | [] => []
  | c :: rest =>
      if charVal c = 13 ∨ charVal c = 10 then
        Event.write STDOUT_FILENO [13, 10] :: stdout_write rest
      else if charVal c < 32 ∨ charVal c > 126 then
        let hex := snprintf_hex 5 (toUnsignedChar (charVal c))
        Event.write STDOUT_FILENO (hex.take 4) :: stdout_write rest
      else
        Event.write STDOUT_FILENO [c] :: stdout_write rest

/-- Embedding of `device_write(fd, buf, n)`, lines 35-44. -/
def device_write (fd : Int) : List Byte → List Event
  | [] => []
  | c :: rest =>
      if charVal c = 13 then
        Event.usleep 1000 :: Event.write fd [10] :: device_write fd rest
      else
        Event.usleep 1000 :: Event.write fd [c] :: device_write fd rest

/-- Console-direction transcoding: the bytes `stdout_write` puts on the console. -/
def consoleT (frame : List Byte) : List Byte :=
  written STDOUT_FILENO (stdout_write frame)

/-- The sixteen uppercase hexadecimal digit characters `0123456789ABCDEF`. -/
def upperHexChars : List Byte :=
  [48, 49, 50, 51, 52, 53, 54, 55, 56, 57, 65, 66, 67, 68, 69, 70]

/-! ## The program -/

/-- The file-scope `speed_t baud = 2125000;`. -/
def baud : Nat := 2125000

/-- The termios constant `B9600` (on the BSD family the constant is the rate). -/
def B9600 : Nat := 9600

/-- Embedding of `restore_terminal`, lines 14-17; `orig_tio` is the file-scope
variable it reads. -/
def restore_terminal (orig_tio : Termios) : List Event :=
  [Event.tcsetattr_TCSANOW STDIN_FILENO orig_tio,
   Event.fprintf_stderr "Restored terminal settings.\n"]

/-- What the environment answers during one pass of the `while (1)` loop: the
result of `select`, the descriptors left set in `copy`, and what a `read` on the
device and on standard input would deliver in this pass. -/
structure Iter where
  selectRet : Int
  ready : List Int
  devRead : ReadRes
  conRead : ReadRes
  deriving DecidableEq, Repr

/-- Everything the environment decides for one execution. `iters` is the finite
part of the run that is scripted; when it is used up the process is still blocked
in `select`. -/
structure World where
  argv : List String
  openRet : Int
  devAttrs : Option Nat
  devSetRet : Int
  ioctlRet : Int
  conAttrs : Option Nat
  conSetRet : Int
  iters : List Iter
  deriving DecidableEq, Repr

/-- Result of `tcgetattr(fd, &t)` on a variable whose previous value is `old`. -/
def tcgetattr_into (old : Termios) : Option Nat → Termios
  | some a => Termios.attrs a
  | none => old

/-- One pass of the loop body, lines 91-106. The flag is `true` when the body ran
to its end (next pass follows) and `false` when it left through `break`. -/
def loop_body (fd : Int) (it : Iter) : List Event × Bool :=
  let maxfd := if fd > STDIN_FILENO then fd else STDIN_FILENO
  let sel := Event.select (maxfd + 1) [fd, STDIN_FILENO] it.selectRet it.ready
  if it.selectRet < 0 then ([sel], false)
  else
    let dev : List Event × Bool :=
      if fd ∈ it.ready then
        let n := it.devRead.ret
        if n ≤ 0 then ([Event.read fd 1024 it.devRead], false)
        else (Event.read fd 1024 it.devRead :: stdout_write it.devRead.frame, true)
      else ([], true)
    if dev.2 = false then (sel :: dev.1, false)
    else
      let con : List Event × Bool :=
        if STDIN_FILENO ∈ it.ready then
          let n := it.conRead.ret
          if n ≤ 0 then ([Event.read STDIN_FILENO 1024 it.conRead], false)
          else
            (Event.read STDIN_FILENO 1024 it.conRead ::
              (stdout_write it.conRead.frame ++ device_write fd it.conRead.frame), true)
        else ([], true)
      (sel :: (dev.1 ++ con.1), con.2)

/-- The `while (1)` loop, lines 90-107, over the scripted passes. The flag is
`true` when the loop was left through `break`, `false` when the script ended with
the loop still running. -/
def bridge_loop (fd : Int) : List Iter → List Event × Bool
  | [] => ([], false)
  | it :: rest =>
      let r := loop_body fd it
      if r.2 = false then (r.1, true)
      else
        let k := bridge_loop fd rest
        (r.1 ++ k.1, k.2)

/-- State of the process when `main` stops: the file-scope `orig_tio`, the
functions registered with `atexit`, the trace so far and the value `main`
returned (`none`: it has not returned). -/
structure Proc where
  orig_tio : Termios
  handlers : List Handler
  trace : List Event
  ret : Option Int
  deriving DecidableEq, Repr

/-- Embedding of `main`, lines 46-111. -/
def main (w : World) : Proc :=
  if w.argv.length ≠ 2 then
    { orig_tio := Termios.zero, handlers := [],
      trace := [Event.fprintf_stderr ("Usage: " ++ w.argv.headD "(null)" ++ " /dev/cu.<smth>\n")],
      ret := some 1 }
  else
    let fd := w.openRet
    let t1 := [Event.sys_open (w.argv.getD 1 "") [OFlag.O_RDWR, OFlag.O_NOCTTY, OFlag.O_NONBLOCK] fd]
    if fd < 0 then
      { orig_tio := Termios.zero, handlers := [], trace := t1 ++ [Event.perror "open"],
        ret := some 1 }
    else
      let tio := tcgetattr_into Termios.indeterminate w.devAttrs
      let tio := Termios.cfmakeraw tio
      let tio := Termios.or_CLOCAL tio
      let tio := Termios.cfsetspeed tio B9600
      let t2 := t1 ++ [Event.fcntl_SETFL fd 0, Event.tcgetattr fd w.devAttrs,
                       Event.tcsetattr_TCSANOW fd tio,
                       Event.ioctl_IOSSIOSPEED fd baud w.ioctlRet]
      if w.ioctlRet < 0 then
        { orig_tio := Termios.zero, handlers := [],
          trace := t2 ++ [Event.perror "ioctl IOSSIOSPEED"], ret := some 1 }
      else
        let orig_tio := tcgetattr_into Termios.zero w.conAttrs
        let raw := Termios.cfmakeraw orig_tio
        let t3 := t2 ++ [Event.tcgetattr STDIN_FILENO w.conAttrs,
                         Event.atexit Handler.restore_terminal,
                         Event.tcsetattr_TCSANOW STDIN_FILENO raw]
        let l := bridge_loop fd w.iters
        if l.2 = false then
          { orig_tio := orig_tio, handlers := [Handler.restore_terminal],
            trace := t3 ++ l.1, ret := none }
        else
          { orig_tio := orig_tio, handlers := [Handler.restore_terminal],
            trace := t3 ++ l.1 ++ [Event.close fd], ret := some 0 }

def run_handler (p : Proc) : Handler → List Event
  | Handler.restore_terminal => restore_terminal p.orig_tio

/-- What an observer sees of one execution: the full trace and the exit status
(`none` while the process is still running). -/
structure Outcome where
  trace : List Event
  exit : Option Int
  deriving DecidableEq, Repr

/-- The whole process: `main`, and when it returns, `exit` with the returned
status, which calls the registered functions (last registered first). -/
def run (w : World) : Outcome :=
  let p := main w
  match p.ret with
  | none => { trace := p.trace, exit := none }
  | some code =>
      { trace := p.trace ++ (p.handlers.reverse.map (run_handler p)).flatten,
        exit := some code }

/-- The calls that occur inside the loop: `select`, `read`, `write`, `usleep`. -/
def inLoopAlphabet : Event → Bool
  | Event.select _ _ _ _ => true
  | Event.read _ _ _ => true
  | Event.write _ _ => true
  | Event.usleep _ => true
  | _ => false

/-- A scripted execution whose device rejects the termios settings
(`tcsetattr` on the device returns -1) while the speed call succeeds; the first
wait then fails. -/
def worldSetattrFails : World :=
  { argv := ["serial_connect", "/dev/cu.usbserial"], openRet := 3,
    devAttrs := some 0, devSetRet := -1, ioctlRet := 0,
    conAttrs := some 1, conSetRet := 0,
    iters := [{ selectRet := -1, ready := [], devRead := ReadRes.error,
                conRead := ReadRes.error }] }

/-- A scripted execution whose `open` fails. -/
def worldOpenFails : World :=
  { argv := ["serial_connect", "/dev/cu.missing"], openRet := -1,
    devAttrs := none, devSetRet := -1, ioctlRet := -1,
    conAttrs := some 1, conSetRet := 0, iters := [] }

/-- A scripted execution whose speed call fails. -/
def worldIoctlFails : World :=
  { argv := ["serial_connect", "/dev/cu.usbserial"], openRet := 3,
    devAttrs := some 0, devSetRet := 0, ioctlRet := -1,
    conAttrs := some 1, conSetRet := 0, iters := [] }

/-! ## Facts about single bytes -/

set_option maxRecDepth 100000

/-- What `stdout_write` does with a one-byte frame, for each of the 256 bytes. -/
theorem stdout_write_byte : ∀ b : Byte,
    stdout_write [b] =
      [Event.write STDOUT_FILENO
        (if b.val = 13 ∨ b.val = 10 then [13, 10]
         else if b.val < 32 ∨ 126 < b.val then
           [91, upperHexChars.getD (b.val / 16) 0, upperHexChars.getD (b.val % 16) 0, 93]
         else [b])] := by
  decide

theorem charVal_eq_cr : ∀ c : Byte, charVal c = 13 ↔ c.val = 13 := by
  decide

theorem stdout_write_cons (c : Byte) (rest : List Byte) :
    stdout_write (c :: rest) = stdout_write [c] ++ stdout_write rest := by
  simp only [stdout_write]
  split
  · rfl
  · split <;> rfl

theorem written_append (fd : Int) (a b : List Event) :
    written fd (a ++ b) = written fd a ++ written fd b := by
  induction a with
  | nil => rfl
  | cons e rest ih =>
    cases e <;> simp [written, ih]
    split <;> simp

theorem consoleT_cons (c : Byte) (rest : List Byte) :
    consoleT (c :: rest) = consoleT [c] ++ consoleT rest := by
  unfold consoleT
  rw [stdout_write_cons, written_append]

theorem consoleT_nil : consoleT [] = [] := rfl

theorem consoleT_append (a b : List Byte) :
    consoleT (a ++ b) = consoleT a ++ consoleT b := by
  induction a with
  | nil => simp [consoleT_nil]
  | cons c rest ih =>
    rw [List.cons_append, consoleT_cons, consoleT_cons c rest, ih, List.append_assoc]

theorem device_write_cons (fd : Int) (c : Byte) (rest : List Byte) :
    device_write fd (c :: rest) =
      Event.usleep 1000 :: Event.write fd [if c.val = 13 then 10 else c]
        :: device_write fd rest := by
  simp only [device_write, charVal_eq_cr]
  split <;> rfl

theorem written_device_write (fd : Int) (f : List Byte) :
    written fd (device_write fd f) = f.map (fun c => if c.val = 13 then 10 else c) := by
  induction f with
  | nil => rfl
  | cons c rest ih =>
    rw [device_write_cons]
    simp [written, ih]

/-! ## Console-direction transcoding of one byte -/

/-- C1: a byte outside 32..126 other than CR and LF, alone in a frame, makes
`stdout_write` issue one write of exactly four bytes: an opening bracket, the two
uppercase hexadecimal digits of the unsigned value of the byte (high digit
first), a closing bracket. -/
theorem stdout_write_escapes (b : Byte) (hout : b.val < 32 ∨ 126 < b.val)
    (hcr : b.val ≠ 13) (hlf : b.val ≠ 10) :
    ∃ hi lo : Nat, hi < 16 ∧ lo < 16 ∧ 16 * hi + lo = b.val ∧
      stdout_write [b] =
        [Event.write STDOUT_FILENO
          [91, upperHexChars.getD hi 0, upperHexChars.getD lo 0, 93]] ∧
      consoleT [b] = [91, upperHexChars.getD hi 0, upperHexChars.getD lo 0, 93] ∧
      (consoleT [b]).length = 4 := by
  have hb := stdout_write_byte b
  have h1 : ¬ (b.val = 13 ∨ b.val = 10) := by omega
  rw [if_neg h1, if_pos hout] at hb
  refine ⟨b.val / 16, b.val % 16, ?_, ?_, ?_, hb, ?_, ?_⟩
  · have := b.isLt
    omega
  · omega
  · omega
  · simp [consoleT, hb, written]
  · simp [consoleT, hb, written]

/-- The BEL byte 0x07 is shown as the four bytes `[07]`. -/
theorem stdout_write_escapes_witness :
    ((7 : Byte).val < 32 ∨ 126 < (7 : Byte).val) ∧
    (∃ hi lo : Nat, hi < 16 ∧ lo < 16 ∧ 16 * hi + lo = (7 : Byte).val ∧
      stdout_write [7] =
        [Event.write STDOUT_FILENO
          [91, upperHexChars.getD hi 0, upperHexChars.getD lo 0, 93]] ∧
      consoleT [7] = [91, upperHexChars.getD hi 0, upperHexChars.getD lo 0, 93] ∧
      (consoleT [7]).length = 4) ∧
    consoleT [7] = [91, 48, 55, 93] :=
  ⟨by decide, stdout_write_escapes 7 (by decide) (by decide) (by decide), by decide⟩

/-- C2: a CR or an LF, alone in a frame, makes `stdout_write` issue one write of
the two bytes CR LF and nothing else; the frame `AB\r` comes out as `AB\r\n`. -/
theorem stdout_write_newline (b : Byte) (h : b.val = 13 ∨ b.val = 10) :
    stdout_write [b] = [Event.write STDOUT_FILENO [13, 10]] ∧
    consoleT [b] = [13, 10] ∧
    stdout_write [65, 66, 13] =
      [Event.write STDOUT_FILENO [65], Event.write STDOUT_FILENO [66],
       Event.write STDOUT_FILENO [13, 10]] ∧
    consoleT [65, 66, 13] = [65, 66, 13, 10] := by
  have hb := stdout_write_byte b
  rw [if_pos h] at hb
  refine ⟨hb, ?_, by decide, by decide⟩
  simp [consoleT, hb, written]

/-- Both CR and LF are shown as CR LF. -/
theorem stdout_write_newline_witness :
    (stdout_write [13] = [Event.write STDOUT_FILENO [13, 10]] ∧
      consoleT [13] = [13, 10]) ∧
    (stdout_write [10] = [Event.write STDOUT_FILENO [13, 10]] ∧
      consoleT [10] = [13, 10]) :=
  ⟨⟨(stdout_write_newline 13 (Or.inl rfl)).1, (stdout_write_newline 13 (Or.inl rfl)).2.1⟩,
   ⟨(stdout_write_newline 10 (Or.inr rfl)).1, (stdout_write_newline 10 (Or.inr rfl)).2.1⟩⟩

/-- C3: a byte in 32..126, alone in a frame, makes `stdout_write` issue one write
of that single byte, unchanged. -/
theorem stdout_write_printable (b : Byte) (hlo : 32 ≤ b.val) (hhi : b.val ≤ 126) :
    stdout_write [b] = [Event.write STDOUT_FILENO [b]] ∧ consoleT [b] = [b] := by
  have hb := stdout_write_byte b
  have h1 : ¬ (b.val = 13 ∨ b.val = 10) := by omega
  have h2 : ¬ (b.val < 32 ∨ 126 < b.val) := by omega
  rw [if_neg h1, if_neg h2] at hb
  refine ⟨hb, ?_⟩
  simp [consoleT, hb, written]

/-- The letter `A` (65) is written as it is. -/
theorem stdout_write_printable_witness :
    32 ≤ (65 : Byte).val ∧ (65 : Byte).val ≤ 126 ∧
    stdout_write [65] = [Event.write STDOUT_FILENO [65]] ∧ consoleT [65] = [65] :=
  ⟨by decide, by decide, stdout_write_printable 65 (by decide) (by decide)⟩

/-! ## Device-direction path -/

/-- C4: the bytes `device_write` hands to the device are as many as the frame
has, and the byte at each index is LF where the frame has CR and the frame byte
itself everywhere else (no escape, no CR LF expansion). -/
theorem device_write_bytes (fd : Int) (f : List Byte) :
    (written fd (device_write fd f)).length = f.length ∧
    (∀ i (h : i < f.length),
      (written fd (device_write fd f))[i]? =
        some (if (f.get ⟨i, h⟩).val = 13 then (10 : Byte) else f.get ⟨i, h⟩)) ∧
    written fd (device_write fd [7, 13, 10, 255]) = [7, 10, 10, 255] := by
  rw [written_device_write]
  refine ⟨by simp, ?_, ?_⟩
  · intro i h
    simp [List.getElem?_map, List.getElem?_eq_getElem h]
  · rw [written_device_write]
    decide

theorem device_write_length (fd : Int) (f : List Byte) :
    (device_write fd f).length = 2 * f.length := by
  induction f with
  | nil => rfl
  | cons c rest ih =>
    rw [device_write_cons]
    simp only [List.length_cons, ih]
    omega

theorem device_write_filter (fd : Int) (f : List Byte) :
    ((device_write fd f).filter isWrite).length = f.length := by
  induction f with
  | nil => rfl
  | cons c rest ih =>
    rw [device_write_cons]
    simp [List.filter, isWrite, ih]

theorem device_write_at (fd : Int) (f : List Byte) :
    ∀ i (h : i < f.length),
      (device_write fd f)[2 * i]? = some (Event.usleep 1000) ∧
      (device_write fd f)[2 * i + 1]? =
        some (Event.write fd
          [if (f.get ⟨i, h⟩).val = 13 then (10 : Byte) else f.get ⟨i, h⟩]) := by
  induction f with
  | nil => intro i h; simp at h
  | cons c rest ih =>
    intro i h
    rw [device_write_cons]
    cases i with
    | zero => simp
    | succ k =>
      have hk : k < rest.length := by simpa using h
      have e1 : 2 * (k + 1) = (2 * k) + 1 + 1 := by omega
      rw [e1]
      simpa using ih k hk

theorem device_write_write_at (fd : Int) (f : List Byte) :
    ∀ j fd1 bs, (device_write fd f)[j]? = some (Event.write fd1 bs) →
      fd1 = fd ∧ bs.length = 1 ∧
      ∃ k, j = k + 1 ∧ (device_write fd f)[k]? = some (Event.usleep 1000) := by
  induction f with
  | nil => intro j fd1 bs h; simp [device_write] at h
  | cons c rest ih =>
    intro j fd1 bs h
    rw [device_write_cons] at h ⊢
    match j with
    | 0 => simp at h
    | 1 =>
      simp at h
      refine ⟨h.1.symm, ?_, 0, rfl, by simp⟩
      rw [← h.2]
      rfl
    | k + 2 =>
      simp at h
      obtain ⟨h1, h2, m, hm, hm2⟩ := ih k fd1 bs h
      refine ⟨h1, h2, m + 2, by omega, ?_⟩
      simpa using hm2

/-- C5: the trace of `device_write` on a frame of n bytes has 2n entries: entry
2i is a delay of 1000 microseconds and entry 2i+1 is a write to the device handle
of the single byte for frame position i. So there are exactly n writes, in frame
order, one byte each, and every write in the trace (the first too) comes right
after a delay. The frame `AB\r` gives delay, `A`, delay, `B`, delay, LF. -/
theorem device_write_paced (fd : Int) (f : List Byte) :
    ((device_write fd f).filter isWrite).length = f.length ∧
    (device_write fd f).length = 2 * f.length ∧
    (∀ i (h : i < f.length),
      (device_write fd f)[2 * i]? = some (Event.usleep 1000) ∧
      (device_write fd f)[2 * i + 1]? =
        some (Event.write fd
          [if (f.get ⟨i, h⟩).val = 13 then (10 : Byte) else f.get ⟨i, h⟩])) ∧
    (∀ j fd1 bs, (device_write fd f)[j]? = some (Event.write fd1 bs) →
      fd1 = fd ∧ bs.length = 1 ∧
      ∃ k, j = k + 1 ∧ (device_write fd f)[k]? = some (Event.usleep 1000)) ∧
    device_write fd [65, 66, 13] =
      [Event.usleep 1000, Event.write fd [65], Event.usleep 1000, Event.write fd [66],
       Event.usleep 1000, Event.write fd [10]] :=
  ⟨device_write_filter fd f, device_write_length fd f, device_write_at fd f,
   device_write_write_at fd f, by
    have h65 : ¬ ((65 : Byte).val = 13) := by decide
    have h66 : ¬ ((66 : Byte).val = 13) := by decide
    have h13 : (13 : Byte).val = 13 := by decide
    rw [device_write_cons, device_write_cons, device_write_cons, if_neg h65, if_neg h66,
      if_pos h13]
    rfl⟩

/-! ## Console-direction transcoding of whole frames -/

theorem consoleT_byte (b : Byte) :
    consoleT [b] =
      if b.val = 13 ∨ b.val = 10 then [13, 10]
      else if b.val < 32 ∨ 126 < b.val then
        [91, upperHexChars.getD (b.val / 16) 0, upperHexChars.getD (b.val % 16) 0, 93]
      else [b] := by
  unfold consoleT
  rw [stdout_write_byte]
  simp [written]

theorem upperHexChars_printable : ∀ d : Fin 16,
    32 ≤ (upperHexChars.getD d.val 0).val ∧ (upperHexChars.getD d.val 0).val ≤ 126 := by
  decide

/-- Each byte comes out either as CR LF (when it is CR or LF) or as one to four
printable bytes (when it is neither). -/
theorem consoleT_byte_cases (c : Byte) :
    ((c.val = 13 ∨ c.val = 10) ∧ consoleT [c] = [13, 10]) ∨
    (c.val ≠ 13 ∧ c.val ≠ 10 ∧ (∀ d ∈ consoleT [c], 32 ≤ d.val ∧ d.val ≤ 126) ∧
      1 ≤ (consoleT [c]).length ∧ (consoleT [c]).length ≤ 4) := by
  rw [consoleT_byte]
  by_cases h1 : c.val = 13 ∨ c.val = 10
  · left
    exact ⟨h1, by rw [if_pos h1]⟩
  · right
    rw [if_neg h1]
    refine ⟨by omega, by omega, ?_⟩
    by_cases h2 : c.val < 32 ∨ 126 < c.val
    · rw [if_pos h2]
      have hhi := upperHexChars_printable ⟨c.val / 16, by have := c.isLt; omega⟩
      have hlo := upperHexChars_printable ⟨c.val % 16, by omega⟩
      refine ⟨?_, by simp, by simp⟩
      intro d hd
      simp only [List.mem_cons, List.mem_singleton, List.not_mem_nil, or_false] at hd
      rcases hd with rfl | rfl | rfl | rfl
      · decide
      · exact hhi
      · exact hlo
      · decide
    · rw [if_neg h2]
      refine ⟨?_, by simp, by simp⟩
      intro d hd
      rw [List.mem_singleton] at hd
      subst hd
      omega

theorem consoleT_byte_fixed (c : Byte) (h : 32 ≤ c.val ∧ c.val ≤ 126) :
    consoleT [c] = [c] := by
  rw [consoleT_byte, if_neg (by omega), if_neg (by omega)]

theorem consoleT_byte_length (c : Byte) :
    1 ≤ (consoleT [c]).length ∧ (consoleT [c]).length ≤ 4 := by
  rcases consoleT_byte_cases c with ⟨_, h⟩ | ⟨_, _, _, h⟩
  · rw [h]; simp
  · exact h

theorem consoleT_length_bounds (f : List Byte) :
    f.length ≤ (consoleT f).length ∧ (consoleT f).length ≤ 4 * f.length := by
  induction f with
  | nil => simp [consoleT_nil]
  | cons c rest ih =>
    rw [consoleT_cons, List.length_append, List.length_cons]
    have := consoleT_byte_length c
    omega

theorem flatten_singletons (l : List Byte) : (l.map (fun d => [d])).flatten = l := by
  induction l with
  | nil => rfl
  | cons d rest ih => simp [ih]

/-- The output is a concatenation of chunks, each one printable byte or CR LF. -/
theorem consoleT_chunks (f : List Byte) :
    ∃ chunks : List (List Byte), consoleT f = chunks.flatten ∧
      ∀ c ∈ chunks, c = [13, 10] ∨ ∃ b : Byte, c = [b] ∧ 32 ≤ b.val ∧ b.val ≤ 126 := by
  induction f with
  | nil => exact ⟨[], rfl, by simp⟩
  | cons c rest ih =>
    obtain ⟨cs, hcs, hgood⟩ := ih
    rcases consoleT_byte_cases c with ⟨_, h⟩ | ⟨_, _, hp, _⟩
    · refine ⟨[13, 10] :: cs, ?_, ?_⟩
      · rw [consoleT_cons, h, hcs]; rfl
      · intro x hx
        rcases List.mem_cons.1 hx with hx | hx
        · exact Or.inl hx
        · exact hgood x hx
    · refine ⟨(consoleT [c]).map (fun d => [d]) ++ cs, ?_, ?_⟩
      · rw [consoleT_cons, hcs, List.flatten_append, flatten_singletons]
      · intro x hx
        rcases List.mem_append.1 hx with hx | hx
        · obtain ⟨d, hd, rfl⟩ := List.mem_map.1 hx
          exact Or.inr ⟨d, rfl, hp d hd⟩
        · exact hgood x hx

/-- In a concatenation of printable bytes and CR LF pairs every byte is printable,
CR or LF, every CR is followed by LF and every LF follows a CR. -/
theorem chunked_shape (chunks : List (List Byte))
    (hgood : ∀ c ∈ chunks, c = [13, 10] ∨ ∃ b : Byte, c = [b] ∧ 32 ≤ b.val ∧ b.val ≤ 126) :
    (∀ b ∈ chunks.flatten, (32 ≤ b.val ∧ b.val ≤ 126) ∨ b.val = 13 ∨ b.val = 10) ∧
    (∀ i, chunks.flatten[i]? = some (13 : Byte) → chunks.flatten[i + 1]? = some (10 : Byte)) ∧
    (∀ i, chunks.flatten[i]? = some (10 : Byte) →
      ∃ j, i = j + 1 ∧ chunks.flatten[j]? = some (13 : Byte)) := by
  induction chunks with
  | nil => simp
  | cons c cs ih =>
    obtain ⟨ih1, ih2, ih3⟩ := ih (fun x hx => hgood x (List.mem_cons_of_mem _ hx))
    rcases hgood c (List.mem_cons_self _ _) with rfl | ⟨b, rfl, hb1, hb2⟩
    · refine ⟨?_, ?_, ?_⟩
      · intro b hb
        simp only [List.flatten_cons, List.cons_append, List.nil_append, List.mem_cons] at hb
        rcases hb with rfl | rfl | hb
        · exact Or.inr (Or.inl rfl)
        · exact Or.inr (Or.inr rfl)
        · exact ih1 b hb
      · intro i hi
        simp only [List.flatten_cons, List.cons_append, List.nil_append] at hi ⊢
        match i with
        | 0 => simp
        | 1 => simp at hi
        | k + 2 =>
          simp only [List.getElem?_cons_succ] at hi ⊢
          exact ih2 k hi
      · intro i hi
        simp only [List.flatten_cons, List.cons_append, List.nil_append] at hi ⊢
        match i with
        | 0 => simp at hi
        | 1 => exact ⟨0, rfl, rfl⟩
        | k + 2 =>
          simp only [List.getElem?_cons_succ] at hi
          obtain ⟨j, hj, hj2⟩ := ih3 k hi
          refine ⟨j + 2, by omega, ?_⟩
          simpa using hj2
    · refine ⟨?_, ?_, ?_⟩
      · intro d hd
        simp only [List.flatten_cons, List.cons_append, List.nil_append, List.mem_cons] at hd
        rcases hd with rfl | hd
        · exact Or.inl ⟨hb1, hb2⟩
        · exact ih1 d hd
      · intro i hi
        simp only [List.flatten_cons, List.cons_append, List.nil_append] at hi ⊢
        match i with
        | 0 =>
          simp at hi
          subst hi
          exact absurd hb1 (by decide)
        | k + 1 =>
          simp only [List.getElem?_cons_succ] at hi ⊢
          exact ih2 k hi
      · intro i hi
        simp only [List.flatten_cons, List.cons_append, List.nil_append] at hi ⊢
        match i with
        | 0 =>
          simp at hi
          subst hi
          exact absurd hb1 (by decide)
        | k + 1 =>
          simp only [List.getElem?_cons_succ] at hi
          obtain ⟨j, hj, hj2⟩ := ih3 k hi
          refine ⟨j + 1, by omega, ?_⟩
          simpa using hj2

/-- C10: for every frame, what `stdout_write` puts on the console is a
concatenation of printable bytes (32..126) and CR LF pairs: every byte of it is
printable, CR or LF, every CR is directly followed by LF, every LF is directly
preceded by CR, and its length lies between n and 4n for a frame of n bytes. -/
theorem consoleT_display_safe (f : List Byte) :
    (∃ chunks : List (List Byte), consoleT f = chunks.flatten ∧
      ∀ c ∈ chunks, c = [13, 10] ∨ ∃ b : Byte, c = [b] ∧ 32 ≤ b.val ∧ b.val ≤ 126) ∧
    (∀ b ∈ consoleT f, (32 ≤ b.val ∧ b.val ≤ 126) ∨ b.val = 13 ∨ b.val = 10) ∧
    (∀ i, (consoleT f)[i]? = some (13 : Byte) → (consoleT f)[i + 1]? = some (10 : Byte)) ∧
    (∀ i, (consoleT f)[i]? = some (10 : Byte) →
      ∃ j, i = j + 1 ∧ (consoleT f)[j]? = some (13 : Byte)) ∧
    f.length ≤ (consoleT f).length ∧ (consoleT f).length ≤ 4 * f.length := by
  obtain ⟨cs, hcs, hgood⟩ := consoleT_chunks f
  obtain ⟨h1, h2, h3⟩ := chunked_shape cs hgood
  refine ⟨⟨cs, hcs, hgood⟩, ?_, ?_, ?_, consoleT_length_bounds f⟩
  · rw [hcs]; exact h1
  · rw [hcs]; exact h2
  · rw [hcs]; exact h3

/-! ## Re-applying the console-direction transcoding -/

theorem consoleT_printable_of_no_newline (x : List Byte)
    (h : ∀ b ∈ x, b.val ≠ 13 ∧ b.val ≠ 10) :
    ∀ c ∈ consoleT x, 32 ≤ c.val ∧ c.val ≤ 126 := by
  induction x with
  | nil => intro c hc; simp [consoleT_nil] at hc
  | cons b rest ih =>
    intro c hc
    rw [consoleT_cons, List.mem_append] at hc
    rcases hc with hc | hc
    · rcases consoleT_byte_cases b with ⟨hb, _⟩ | ⟨_, _, hp, _⟩
      · have := h b (List.mem_cons_self _ _)
        omega
      · exact hp c hc
    · exact ih (fun d hd => h d (List.mem_cons_of_mem _ hd)) c hc

theorem consoleT_fixed_of_printable (y : List Byte)
    (h : ∀ c ∈ y, 32 ≤ c.val ∧ c.val ≤ 126) : consoleT y = y := by
  induction y with
  | nil => rfl
  | cons c rest ih =>
    rw [consoleT_cons, consoleT_byte_fixed c (h c (List.mem_cons_self _ _)),
      ih (fun d hd => h d (List.mem_cons_of_mem _ hd))]
    rfl

theorem consoleT_longer_of_newline (y : List Byte)
    (h : ∃ c ∈ y, c.val = 13 ∨ c.val = 10) : y.length < (consoleT y).length := by
  induction y with
  | nil => simp at h
  | cons c rest ih =>
    rw [consoleT_cons, List.length_append, List.length_cons]
    obtain ⟨d, hd, hd2⟩ := h
    have hrest := (consoleT_length_bounds rest).1
    have hc := (consoleT_byte_length c).1
    rcases List.mem_cons.1 hd with rfl | hd
    · rcases consoleT_byte_cases d with ⟨_, e⟩ | ⟨n1, n2, _⟩
      · rw [e]
        simp only [List.length_cons, List.length_nil]
        omega
      · omega
    · have := ih ⟨d, hd, hd2⟩
      omega

theorem cr_mem_consoleT (x : List Byte) (h : ∃ b ∈ x, b.val = 13 ∨ b.val = 10) :
    (13 : Byte) ∈ consoleT x := by
  obtain ⟨b, hb, hb2⟩ := h
  obtain ⟨l1, l2, rfl⟩ := List.append_of_mem hb
  rw [consoleT_append, consoleT_cons]
  rcases consoleT_byte_cases b with ⟨_, e⟩ | ⟨n1, n2, _⟩
  · rw [e]
    simp
  · omega

/-- C9: applying the console-direction transcoding to its own output changes
nothing exactly when the frame has no CR and no LF. Without CR and LF the output
is made of printable bytes only, each of which is its own image; a CR or LF in
the frame comes out as CR LF, which the second pass turns into CR LF CR LF. -/
theorem consoleT_idempotent_iff (x : List Byte) :
    (consoleT (consoleT x) = consoleT x ↔ ∀ b ∈ x, b.val ≠ 13 ∧ b.val ≠ 10) ∧
    ((∀ b ∈ x, b.val ≠ 13 ∧ b.val ≠ 10) →
      ∀ c ∈ consoleT x, 32 ≤ c.val ∧ c.val ≤ 126 ∧ consoleT [c] = [c]) ∧
    (∀ b ∈ x, b.val = 13 ∨ b.val = 10 →
      consoleT [b] = [13, 10] ∧ consoleT (consoleT [b]) = [13, 10, 13, 10]) := by
  refine ⟨⟨?_, ?_⟩, ?_, ?_⟩
  · intro heq b hb
    by_contra hne
    have hnl : b.val = 13 ∨ b.val = 10 := by omega
    have hcr := cr_mem_consoleT x ⟨b, hb, hnl⟩
    have hlt := consoleT_longer_of_newline (consoleT x) ⟨13, hcr, Or.inl rfl⟩
    rw [heq] at hlt
    exact Nat.lt_irrefl _ hlt
  · intro h
    exact consoleT_fixed_of_printable _ (consoleT_printable_of_no_newline x h)
  · intro h c hc
    have hp := consoleT_printable_of_no_newline x h c hc
    exact ⟨hp.1, hp.2, consoleT_byte_fixed c hp⟩
  · intro b _ hb
    rcases consoleT_byte_cases b with ⟨_, e⟩ | ⟨n1, n2, _⟩
    · rw [e]
      exact ⟨rfl, by decide⟩
    · omega

/-! ## The bridge loop -/

/-- A pass in which the wait succeeds and no ready endpoint gives an empty or
failed read runs to its end. -/
theorem loop_body_continues (fd : Int) (it : Iter) (h1 : ¬ it.selectRet < 0)
    (h2 : ¬ (fd ∈ it.ready ∧ it.devRead.ret ≤ 0))
    (h3 : ¬ (STDIN_FILENO ∈ it.ready ∧ it.conRead.ret ≤ 0)) :
    (loop_body fd it).2 = true := by
  by_cases h4 : fd ∈ it.ready
  · have h5 : ¬ it.devRead.ret ≤ 0 := fun hh => h2 ⟨h4, hh⟩
    by_cases h6 : STDIN_FILENO ∈ it.ready
    · have h7 : ¬ it.conRead.ret ≤ 0 := fun hh => h3 ⟨h6, hh⟩
      simp [loop_body, h1, h4, h5, h6, h7]
    · simp [loop_body, h1, h4, h5, h6]
  · by_cases h6 : STDIN_FILENO ∈ it.ready
    · have h7 : ¬ it.conRead.ret ≤ 0 := fun hh => h3 ⟨h6, hh⟩
      simp [loop_body, h1, h4, h6, h7]
    · simp [loop_body, h1, h4, h6]

/-- The loop is left in no other way: when it was left, some pass had a failing
wait or a ready endpoint whose read returned at most 0. -/
theorem bridge_loop_left_only_by_failure (fd : Int) (its : List Iter)
    (h : (bridge_loop fd its).2 = true) :
    ∃ it ∈ its, it.selectRet < 0 ∨ (fd ∈ it.ready ∧ it.devRead.ret ≤ 0) ∨
      (STDIN_FILENO ∈ it.ready ∧ it.conRead.ret ≤ 0) := by
  induction its with
  | nil => simp [bridge_loop] at h
  | cons it rest ih =>
    by_cases h1 : it.selectRet < 0
    · exact ⟨it, List.mem_cons_self _ _, Or.inl h1⟩
    · by_cases h2 : fd ∈ it.ready ∧ it.devRead.ret ≤ 0
      · exact ⟨it, List.mem_cons_self _ _, Or.inr (Or.inl h2)⟩
      · by_cases h3 : STDIN_FILENO ∈ it.ready ∧ it.conRead.ret ≤ 0
        · exact ⟨it, List.mem_cons_self _ _, Or.inr (Or.inr h3)⟩
        · have hc := loop_body_continues fd it h1 h2 h3
          simp only [bridge_loop, hc] at h
          obtain ⟨j, hj, hj2⟩ := ih (by simpa using h)
          exact ⟨j, List.mem_cons_of_mem _ hj, hj2⟩

/-! ## Startup and shutdown -/

/-- The run of a process that got past the device setup and whose loop was left. -/
theorem run_of_loop_left (w : World) (hargc : w.argv.length = 2) (hopen : 0 ≤ w.openRet)
    (hioctl : 0 ≤ w.ioctlRet) (hleft : (bridge_loop w.openRet w.iters).2 = true) :
    run w =
      { trace :=
          [Event.sys_open (w.argv.getD 1 "")
              [OFlag.O_RDWR, OFlag.O_NOCTTY, OFlag.O_NONBLOCK] w.openRet,
            Event.fcntl_SETFL w.openRet 0,
            Event.tcgetattr w.openRet w.devAttrs,
            Event.tcsetattr_TCSANOW w.openRet
              (Termios.cfsetspeed (Termios.or_CLOCAL (Termios.cfmakeraw
                (tcgetattr_into Termios.indeterminate w.devAttrs))) B9600),
            Event.ioctl_IOSSIOSPEED w.openRet baud w.ioctlRet,
            Event.tcgetattr STDIN_FILENO w.conAttrs,
            Event.atexit Handler.restore_terminal,
            Event.tcsetattr_TCSANOW STDIN_FILENO
              (Termios.cfmakeraw (tcgetattr_into Termios.zero w.conAttrs))]
          ++ (bridge_loop w.openRet w.iters).1
          ++ [Event.close w.openRet,
              Event.tcsetattr_TCSANOW STDIN_FILENO (tcgetattr_into Termios.zero w.conAttrs),
              Event.fprintf_stderr "Restored terminal settings.\n"],
        exit := some 0 } := by
  have h1 : ¬ w.openRet < 0 := not_lt.mpr hopen
  have h2 : ¬ w.ioctlRet < 0 := not_lt.mpr hioctl
  simp [run, main, hargc, h1, h2, hleft, run_handler, restore_terminal]

/-- C7: when `open` returns a negative handle the whole execution is the `open`
call, the `perror` diagnostic and exit status 1: no `tcgetattr` or `tcsetattr`, no
`atexit` registration (so no restore at exit), no `select` and no `read`. -/
theorem open_failure_exit (w : World) (hargc : w.argv.length = 2)
    (hopen : w.openRet < 0) :
    run w =
      { trace := [Event.sys_open (w.argv.getD 1 "")
                    [OFlag.O_RDWR, OFlag.O_NOCTTY, OFlag.O_NONBLOCK] w.openRet,
                  Event.perror "open"],
        exit := some 1 } ∧
    (main w).handlers = [] ∧
    (∀ fd res, Event.tcgetattr fd res ∉ (run w).trace) ∧
    (∀ fd tio, Event.tcsetattr_TCSANOW fd tio ∉ (run w).trace) ∧
    (∀ h, Event.atexit h ∉ (run w).trace) ∧
    (∀ e ∈ (run w).trace, inLoopAlphabet e = false) := by
  have hmain : main w =
      { orig_tio := Termios.zero, handlers := [],
        trace := [Event.sys_open (w.argv.getD 1 "")
                    [OFlag.O_RDWR, OFlag.O_NOCTTY, OFlag.O_NONBLOCK] w.openRet,
                  Event.perror "open"],
        ret := some 1 } := by
    simp [main, hargc, hopen]
  have hrun : run w =
      { trace := [Event.sys_open (w.argv.getD 1 "")
                    [OFlag.O_RDWR, OFlag.O_NOCTTY, OFlag.O_NONBLOCK] w.openRet,
                  Event.perror "open"],
        exit := some 1 } := by
    simp [run, hmain]
  refine ⟨hrun, by rw [hmain], ?_, ?_, ?_, ?_⟩
  · intro fd res
    simp [hrun]
  · intro fd tio
    simp [hrun]
  · intro h
    simp [hrun]
  · intro e he
    rw [hrun] at he
    simp only [List.mem_cons, List.mem_singleton, List.not_mem_nil, or_false] at he
    rcases he with rfl | rfl <;> rfl

/-- A missing device path: `open` returns -1, the process prints the diagnostic
and exits with status 1. -/
theorem open_failure_exit_witness :
    worldOpenFails.argv.length = 2 ∧ worldOpenFails.openRet < 0 ∧
    run worldOpenFails =
      { trace := [Event.sys_open "/dev/cu.missing"
                    [OFlag.O_RDWR, OFlag.O_NOCTTY, OFlag.O_NONBLOCK] (-1),
                  Event.perror "open"],
        exit := some 1 } :=
  ⟨by decide, by decide,
    (open_failure_exit worldOpenFails (by decide) (by decide)).1⟩

/-! ## Device configuration -/

/-- C8 fails for the termios step: with `tcsetattr` on the device returning -1 and
the speed call succeeding, the process does not exit with status 1; it puts the
console into raw mode, enters the loop and (the first wait failing) ends with
status 0. -/
theorem device_setattr_failure_ignored :
    worldSetattrFails.argv.length = 2 ∧ 0 ≤ worldSetattrFails.openRet ∧
    worldSetattrFails.devSetRet < 0 ∧
    (run worldSetattrFails).exit = some 0 ∧
    (run worldSetattrFails).exit ≠ some 1 ∧
    Event.tcsetattr_TCSANOW STDIN_FILENO (Termios.cfmakeraw (Termios.attrs 1))
      ∈ (run worldSetattrFails).trace ∧
    Event.select 4 [3, 0] (-1) [] ∈ (run worldSetattrFails).trace := by
  decide

/-- The run of a process that got past the device setup and whose loop is still
running when the script ends. -/
theorem run_of_loop_running (w : World) (hargc : w.argv.length = 2)
    (hopen : 0 ≤ w.openRet) (hioctl : 0 ≤ w.ioctlRet)
    (hrunning : (bridge_loop w.openRet w.iters).2 = false) :
    run w =
      { trace :=
          [Event.sys_open (w.argv.getD 1 "")
              [OFlag.O_RDWR, OFlag.O_NOCTTY, OFlag.O_NONBLOCK] w.openRet,
            Event.fcntl_SETFL w.openRet 0,
            Event.tcgetattr w.openRet w.devAttrs,
            Event.tcsetattr_TCSANOW w.openRet
              (Termios.cfsetspeed (Termios.or_CLOCAL (Termios.cfmakeraw
                (tcgetattr_into Termios.indeterminate w.devAttrs))) B9600),
            Event.ioctl_IOSSIOSPEED w.openRet baud w.ioctlRet,
            Event.tcgetattr STDIN_FILENO w.conAttrs,
            Event.atexit Handler.restore_terminal,
            Event.tcsetattr_TCSANOW STDIN_FILENO
              (Termios.cfmakeraw (tcgetattr_into Termios.zero w.conAttrs))]
          ++ (bridge_loop w.openRet w.iters).1,
        exit := none } := by
  have h1 : ¬ w.openRet < 0 := not_lt.mpr hopen
  have h2 : ¬ w.ioctlRet < 0 := not_lt.mpr hioctl
  simp [run, main, hargc, h1, h2, hrunning]

/-- C8 as amended. Of the two device configuration steps only the speed step is
fatal.
(1) A failing speed call (`ioctl` with `IOSSIOSPEED` returning a negative value)
ends the process with status 1 right after the `perror` diagnostic, with no call
on the console attributes, no `atexit` registration and no pass of the loop.
(2) The value returned by `tcsetattr` on the device plays no part in any
execution: changing it changes nothing of the run.
(3) So a failure of that step alone does not stop the program: whatever value `r`
(a negative one included) `tcsetattr` on the device returns, when the speed call
succeeds the process does not exit with status 1, registers the restore routine,
puts the console into raw mode and runs the loop on the scripted passes. -/
theorem speed_failure_exit (w : World) :
    (w.argv.length = 2 → 0 ≤ w.openRet → w.ioctlRet < 0 →
      run w =
        { trace :=
            [Event.sys_open (w.argv.getD 1 "")
                [OFlag.O_RDWR, OFlag.O_NOCTTY, OFlag.O_NONBLOCK] w.openRet,
              Event.fcntl_SETFL w.openRet 0,
              Event.tcgetattr w.openRet w.devAttrs,
              Event.tcsetattr_TCSANOW w.openRet
                (Termios.cfsetspeed (Termios.or_CLOCAL (Termios.cfmakeraw
                  (tcgetattr_into Termios.indeterminate w.devAttrs))) B9600),
              Event.ioctl_IOSSIOSPEED w.openRet baud w.ioctlRet,
              Event.perror "ioctl IOSSIOSPEED"],
          exit := some 1 } ∧
      (main w).handlers = []) ∧
    (∀ r : Int, run { w with devSetRet := r } = run w) ∧
    (∀ r : Int, w.argv.length = 2 → 0 ≤ w.openRet → 0 ≤ w.ioctlRet →
      (run { w with devSetRet := r }).exit ≠ some 1 ∧
      ((run { w with devSetRet := r }).exit = some 0 ∨
        (run { w with devSetRet := r }).exit = none) ∧
      ∃ rest, (run { w with devSetRet := r }).trace =
        [Event.sys_open (w.argv.getD 1 "")
            [OFlag.O_RDWR, OFlag.O_NOCTTY, OFlag.O_NONBLOCK] w.openRet,
          Event.fcntl_SETFL w.openRet 0,
          Event.tcgetattr w.openRet w.devAttrs,
          Event.tcsetattr_TCSANOW w.openRet
            (Termios.cfsetspeed (Termios.or_CLOCAL (Termios.cfmakeraw
              (tcgetattr_into Termios.indeterminate w.devAttrs))) B9600),
          Event.ioctl_IOSSIOSPEED w.openRet baud w.ioctlRet,
          Event.tcgetattr STDIN_FILENO w.conAttrs,
          Event.atexit Handler.restore_terminal,
          Event.tcsetattr_TCSANOW STDIN_FILENO
            (Termios.cfmakeraw (tcgetattr_into Termios.zero w.conAttrs))]
        ++ (bridge_loop w.openRet w.iters).1 ++ rest) := by
  refine ⟨?_, ?_, ?_⟩
  · intro hargc hopen hioctl
    have h1 : ¬ w.openRet < 0 := not_lt.mpr hopen
    exact ⟨by simp [run, main, hargc, h1, hioctl], by simp [main, hargc, h1, hioctl]⟩
  · intro r
    rfl
  · intro r hargc hopen hioctl
    have hsame : run { w with devSetRet := r } = run w := rfl
    rw [hsame]
    by_cases hl : (bridge_loop w.openRet w.iters).2 = true
    · rw [run_of_loop_left w hargc hopen hioctl hl]
      exact ⟨by simp, Or.inl rfl, _, rfl⟩
    · have hl2 : (bridge_loop w.openRet w.iters).2 = false := by simpa using hl
      rw [run_of_loop_running w hargc hopen hioctl hl2]
      exact ⟨by simp, Or.inr rfl, [], by simp⟩

/-- Two scripted runs on an opened device. When the speed call fails the process
ends with status 1 and the console is untouched. When only `tcsetattr` on the
device fails (it returns -1) the process goes on: raw mode, the loop, status 0. -/
theorem speed_failure_exit_witness :
    (worldIoctlFails.argv.length = 2 ∧ 0 ≤ worldIoctlFails.openRet ∧
      worldIoctlFails.ioctlRet < 0 ∧
      run worldIoctlFails =
        { trace :=
            [Event.sys_open "/dev/cu.usbserial"
                [OFlag.O_RDWR, OFlag.O_NOCTTY, OFlag.O_NONBLOCK] 3,
              Event.fcntl_SETFL 3 0,
              Event.tcgetattr 3 (some 0),
              Event.tcsetattr_TCSANOW 3
                (Termios.cfsetspeed
                  (Termios.or_CLOCAL (Termios.cfmakeraw (Termios.attrs 0))) 9600),
              Event.ioctl_IOSSIOSPEED 3 2125000 (-1),
              Event.perror "ioctl IOSSIOSPEED"],
          exit := some 1 }) ∧
    (worldSetattrFails.argv.length = 2 ∧ 0 ≤ worldSetattrFails.openRet ∧
      0 ≤ worldSetattrFails.ioctlRet ∧
      (run { worldSetattrFails with devSetRet := -1 }).exit ≠ some 1 ∧
      run { worldSetattrFails with devSetRet := -1 } =
        run { worldSetattrFails with devSetRet := 0 }) :=
  ⟨⟨by decide, by decide, by decide,
      ((speed_failure_exit worldIoctlFails).1 (by decide) (by decide) (by decide)).1⟩,
    ⟨by decide, by decide, by decide,
      ((speed_failure_exit worldSetattrFails).2.2 (-1) (by decide) (by decide)
        (by decide)).1,
      ((speed_failure_exit worldSetattrFails).2.1 (-1)).trans
        ((speed_failure_exit worldSetattrFails).2.1 0).symm⟩⟩

end SerialConnect
